import Mathlib

/-!
Shallow embedding of mutable.py (the MutableTrap repository): a decorator
that protects mutable default parameter values by injecting a fresh copy of
the declared default on every call where the parameter is not supplied.

The embedding follows the source closely: Python-level list indexing (with
negative-index wrap-around), list.index, and dict lookup are modelled
explicitly; signature introspection is modelled by a FullArgSpec record
mirroring inspect.getfullargspec; object identity and mutation are modelled
by a heap of flat integer-list cells addressed by natural numbers.
-/

namespace MutableTrap

/-- Errors raised by the Python runtime operations that mutable.py uses. -/
inductive PyError : Type where
  | valueError (msg : String)
  | indexError
  | keyError (key : String)
deriving DecidableEq, Repr

/-- Python list.index: position of the first occurrence, ValueError when the
element is absent. -/
def pyIndex (l : List String) (x : String) : Except PyError Nat :=
  match l with
  | [] => Except.error (PyError.valueError "x is not in list")
  | a :: rest =>
      if a = x then Except.ok 0
      else (pyIndex rest x).map (fun n => n + 1)

/-- Python sequence indexing l[i]: a negative index counts from the end of
the sequence, and an out-of-range index raises IndexError. -/
def pyGet {α : Type} (l : List α) (i : Int) : Except PyError α :=
  if 0 ≤ i then
    match l.get? i.toNat with
    | some x => Except.ok x
    | none => Except.error PyError.indexError
  else if i + (l.length : Int) < 0 then Except.error PyError.indexError
  else
    match l.get? (i + (l.length : Int)).toNat with
    | some x => Except.ok x
    | none => Except.error PyError.indexError

/-- Python dict lookup on an association list (first binding wins). -/
def lookupStr {α : Type} (l : List (String × α)) (nm : String) : Option α :=
  match l with
  | [] => none
  | (k, v) :: rest => if k = nm then some v else lookupStr rest nm

/-- The part of inspect.getfullargspec(f) that mutable.py consults:
positional parameter names, their trailing default values (after the
None-to-empty normalization of _get_default_args, lines 21-28), keyword-only
parameter names, and their defaults (after _get_default_kwargs, lines
31-38). getfullargspec guarantees defaults.length ≤ args.length and that
kwonlydefaults binds distinct keyword-only parameter names. -/
structure FullArgSpec (α : Type) where
  args : List String
  defaults : List α
  kwonlyargs : List String
  kwonlydefaults : List (String × α)
deriving DecidableEq, Repr

/-- Mirrors the Parameter named tuple (mutable.py lines 10-13). -/
structure Parameter (α : Type) where
  name : String
  idx : Nat
  default_val : α
deriving DecidableEq, Repr

/-- Mirrors the KWParameter named tuple (mutable.py lines 16-18). -/
structure KWParameter (α : Type) where
  name : String
  default_val : α
deriving DecidableEq, Repr

/-- Embeds _get_arginfo (mutable.py lines 41-50). The offset into the
defaults tuple is a Python int looked up with Python indexing semantics, so
for a parameter declared before the defaulted region the offset is negative
and silently wraps to the end of the defaults tuple. -/
def get_arginfo {α : Type} (argument : String) (spec : FullArgSpec α) :
    Except PyError (Parameter α) := do
  let f_arguments := spec.args
  let defaults := spec.defaults
  let start_defaults_idx : Int := (f_arguments.length : Int) - (defaults.length : Int)
  let current_argument_idx ← pyIndex f_arguments argument
  let default_val ← pyGet defaults ((current_argument_idx : Int) - start_defaults_idx)
  pure (Parameter.mk argument current_argument_idx default_val)

/-- Embeds _get_kwonly_arginfo (mutable.py lines 53-58): kwdefaults[argument]
raises KeyError when the name has no keyword-only default. -/
def get_kwonly_arginfo {α : Type} (argument : String) (spec : FullArgSpec α) :
    Except PyError (KWParameter α) :=
  match lookupStr spec.kwonlydefaults argument with
  | some v => Except.ok (KWParameter.mk argument v)
  | none => Except.error (PyError.keyError argument)

/-- Embeds _get_arguments_with_defaults (mutable.py lines 61-72). -/
def get_arguments_with_defaults {α : Type} (spec : FullArgSpec α) :
    Except PyError (List (Parameter α)) :=
  let numargs := spec.args.length
  let first_default_idx := numargs - spec.defaults.length
  (spec.args.drop first_default_idx).mapM (fun arg => get_arginfo arg spec)

/-- Embeds _get_kwonly_arguments_with_defaults (mutable.py lines 75-79). -/
def get_kwonly_arguments_with_defaults {α : Type} (spec : FullArgSpec α) :
    Except PyError (List (KWParameter α)) :=
  (spec.kwonlydefaults.map Prod.fst).mapM (fun arg => get_kwonly_arginfo arg spec)

/-- A positional argument handed to the decorator factory: either a parameter
name (a string) or a callable, modelled by its signature. -/
inductive DecArg (α : Type) : Type where
  | str (s : String)
  | func (spec : FullArgSpec α)
deriving DecidableEq, Repr

/-- Python callable(x): function objects are callable, strings are not. -/
def DecArg.isCallable {α : Type} : DecArg α → Bool
  | .str _ => false
  | .func _ => true

/-- Python equality of a decorator argument against a parameter-name string;
a function object never equals a string. -/
def DecArg.eqStr {α : Type} : DecArg α → String → Bool
  | .str s, t => decide (s = t)
  | .func _, _ => false

/-- Display form used in the f-string of the ValueError message. -/
def DecArg.display {α : Type} : DecArg α → String
  | .str s => s
  | .func _ => "function object"

/-- Applying _get_arginfo to a decorator argument: f_arguments.index raises
ValueError on a non-string object (never present in a list of strings). -/
def get_arginfo_d {α : Type} (a : DecArg α) (spec : FullArgSpec α) :
    Except PyError (Parameter α) :=
  match a with
  | .str s => get_arginfo s spec
  | .func _ => Except.error (PyError.valueError "x is not in list")

/-- Applying _get_kwonly_arginfo to a decorator argument: dict lookup of a
non-string object raises KeyError. -/
def get_kwonly_arginfo_d {α : Type} (a : DecArg α) (spec : FullArgSpec α) :
    Except PyError (KWParameter α) :=
  match a with
  | .str s => get_kwonly_arginfo s spec
  | .func _ => Except.error (PyError.keyError "function object")

/-- The classification loop of _get_argument_lists (mutable.py lines
105-115): route each requested name to the positional or keyword-only list,
raising ValueError for a name that is neither. -/
def classify_loop {α : Type} (spec : FullArgSpec α) :
    List (DecArg α) → Except PyError (List (Parameter α) × List (KWParameter α))
  | [] => Except.ok ([], [])
  | arg :: rest =>
      if spec.args.any (fun s => arg.eqStr s) then do
        let p ← get_arginfo_d arg spec
        let (ps, ks) ← classify_loop spec rest
        pure (p :: ps, ks)
      else if spec.kwonlyargs.any (fun s => arg.eqStr s) then do
        let k ← get_kwonly_arginfo_d arg spec
        let (ps, ks) ← classify_loop spec rest
        pure (ps, k :: ks)
      else
        Except.error
          (PyError.valueError (arg.display ++ " is not a valid argument of the callable"))

/-- Embeds _get_argument_lists (mutable.py lines 82-115). -/
def get_argument_lists {α : Type} (args : List (DecArg α)) (spec : FullArgSpec α) :
    Except PyError (List (Parameter α) × List (KWParameter α)) :=
  if args.length = 0 then do
    let arguments ← get_arguments_with_defaults spec
    let kwonly_arguments ← get_kwonly_arguments_with_defaults spec
    pure (arguments, kwonly_arguments)
  else classify_loop spec args

/-- Embeds _arg_supplied_to_call (mutable.py lines 118-121): nargs is
len(args) of the call, kwkeys the keys of its kwargs dict. -/
def arg_supplied_to_call {α : Type} (argument : Parameter α) (nargs : Nat)
    (kwkeys : List String) : Bool :=
  decide (nargs > argument.idx) || decide (argument.name ∈ kwkeys)

/-- The value bound to the local _copy by mutable's configuration block. -/
inductive CopyChoice (γ : Type) : Type where
  | shallow
  | deep
  | custom (g : γ)

/-- Truthiness of the test `if deepcopy:` at mutable.py line 181: deepcopy
there names the function imported from the copy module (line 1), and a
function object is always truthy in Python. -/
def deepcopy_truthy : Bool := true

/-- Embeds the copy-strategy selection block of mutable (lines 181-188):
the branch condition is the truthiness of the imported deepcopy function,
then a non-None copyfunction raises inside the taken branch, the dead else
branch would select shallow copy, and the final dead override would select
the custom function. -/
def select_copy {γ : Type} (use_deepcopy : Bool) (copyfunction : Option γ) :
    Except PyError (CopyChoice γ) := do
  let mode ←
    if deepcopy_truthy then
      if copyfunction.isSome then
        Except.error (PyError.valueError "Cannot specify copyfunction if deepcopy is True")
      else Except.ok (CopyChoice.deep : CopyChoice γ)
    else Except.ok (CopyChoice.shallow : CopyChoice γ)
  match copyfunction with
  | some g => pure (CopyChoice.custom g)
  | none => pure mode

/-- The closure state of safe_f: the selected copy strategy and the two
tracked-parameter lists computed by _get_argument_lists. -/
structure Wrapper (α γ : Type) where
  copy : CopyChoice γ
  arguments : List (Parameter α)
  kwonly_arguments : List (KWParameter α)

/-- Embeds mutable_decorator (mutable.py lines 190-209): applying the
decorator to a callable computes the tracked lists eagerly and closes over
them together with the copy strategy. -/
def mutable_decorator {α γ : Type} (cp : CopyChoice γ) (args : List (DecArg α))
    (spec : FullArgSpec α) : Except PyError (Wrapper α γ) := do
  let (arguments, kwonly_arguments) ← get_argument_lists args spec
  pure (Wrapper.mk cp arguments kwonly_arguments)

/-- Result of calling mutable(...): either the decorator closure (still
awaiting a callable) or, for the bare form mutable(f), the wrapped callable
itself. -/
inductive MutableResult (α γ : Type) : Type where
  | decorator (cp : CopyChoice γ) (args : List (DecArg α))
  | wrapped (w : Wrapper α γ)

/-- Embeds the top-level mutable (mutable.py lines 124-218), including the
bare-decorator dispatch of lines 211-218, which resets args to the empty
tuple before wrapping the callable directly. -/
def mutable {α γ : Type} (args : List (DecArg α)) (use_deepcopy : Bool)
    (copyfunction : Option γ) : Except PyError (MutableResult α γ) := do
  let cp ← select_copy use_deepcopy copyfunction
  match args with
  | [a] =>
      if a.isCallable then
        match a with
        | .func spec =>
            (mutable_decorator cp ([] : List (DecArg α)) spec).map MutableResult.wrapped
        | .str _ => pure (MutableResult.decorator cp args)
      else pure (MutableResult.decorator cp args)
  | _ => pure (MutableResult.decorator cp args)

/-- Runtime values: integers (immutable) and references to list objects. -/
inductive V : Type where
  | int (n : Int)
  | ref (a : Nat)
deriving DecidableEq, Repr

/-- The store of list objects; a value V.ref a names cell a. Cells hold flat
lists of integers, which suffices for the containers the claims discuss. -/
structure Heap : Type where
  cells : List (List Int)
deriving DecidableEq, Repr

/-- Content of cell a (the empty list for a dangling address). -/
def Heap.get (h : Heap) (a : Nat) : List Int := (h.cells.get? a).getD []

/-- Allocate a new list object, returning the grown heap and its address. -/
def Heap.alloc (h : Heap) (xs : List Int) : Heap × Nat :=
  (Heap.mk (h.cells ++ [xs]), h.cells.length)

/-- In-place mutation of the list object at address a. -/
def Heap.set (h : Heap) (a : Nat) (xs : List Int) : Heap := Heap.mk (h.cells.set a xs)

/-- Whether a value's reference (if any) points into the heap. -/
def V.validIn (v : V) (h : Heap) : Bool :=
  match v with
  | .int _ => true
  | .ref a => decide (a < h.cells.length)

/-- copy.copy and copy.deepcopy agree on our cells (flat lists of integers):
both allocate a fresh list object holding the same elements. Integers are
immutable and returned unchanged by both. -/
def copyVal (h : Heap) (v : V) : Heap × V :=
  match v with
  | .int n => (h, V.int n)
  | .ref a =>
      let hb := h.alloc (h.get a)
      (hb.1, V.ref hb.2)

/-- A heap-level copy function, the type at which a custom copyfunction
would act. -/
abbrev HCopy : Type := Heap → V → Heap × V

/-- The heap action of the selected copy strategy. -/
def CopyChoice.run : CopyChoice HCopy → HCopy
  | .shallow => copyVal
  | .deep => copyVal
  | .custom g => g

/-- The first loop of safe_f (mutable.py lines 199-201): for each tracked
positional parameter not supplied by the call, bind a copy of its default
value in kwargs_dict. -/
def inject_args (cp : HCopy) :
    List (Parameter V) → Nat → List String → Heap → Heap × List (String × V)
  | [], _, _, h => (h, [])
  | a :: rest, nargs, kwkeys, h =>
      if arg_supplied_to_call a nargs kwkeys then inject_args cp rest nargs kwkeys h
      else
        let hv := cp h a.default_val
        let ht := inject_args cp rest nargs kwkeys hv.1
        (ht.1, (a.name, hv.2) :: ht.2)

/-- The second loop of safe_f (mutable.py lines 203-205), for tracked
keyword-only parameters. -/
def inject_kwonly (cp : HCopy) :
    List (KWParameter V) → List String → Heap → Heap × List (String × V)
  | [], _, h => (h, [])
  | a :: rest, kwkeys, h =>
      if a.name ∈ kwkeys then inject_kwonly cp rest kwkeys h
      else
        let hv := cp h a.default_val
        let ht := inject_kwonly cp rest kwkeys hv.1
        (ht.1, (a.name, hv.2) :: ht.2)

/-- Embeds one invocation of safe_f (mutable.py lines 196-207): the wrapper
builds kwargs_dict in two loops and delegates as
f(*_args, **_kwargs, **kwargs_dict). The result is the heap after the copies
together with what is handed to f: the caller's positional arguments
verbatim, and the caller's keyword arguments followed by the injected
bindings. -/
def safe_f (w : Wrapper V HCopy) (h : Heap) (P : List V) (K : List (String × V)) :
    Heap × List V × List (String × V) :=
  let cp := w.copy.run
  let s1 := inject_args cp w.arguments P.length (K.map Prod.fst) h
  let s2 := inject_kwonly cp w.kwonly_arguments (K.map Prod.fst) s1.1
  (s2.1, P, K ++ (s1.2 ++ s2.2))

/-- Python's binding of a positional parameter (index i, name nm, declared
default object dv) for a call f(*P, **K): positional wins, then keyword,
then the declared default object itself. Modelled from the language's
calling convention for the underlying callable. -/
def bind_positional (i : Nat) (nm : String) (dv : V) (P : List V)
    (K : List (String × V)) : V :=
  match P.get? i with
  | some v => v
  | none =>
      match lookupStr K nm with
      | some v => v
      | none => dv

/-! ### Helper definitions and lemmas for the verification -/

/-- Heap h' extends heap h when it keeps every cell of h and only appends. -/
def Heap.Extends (h' h : Heap) : Prop := ∃ ext, h'.cells = h.cells ++ ext

theorem Heap.Extends.rfl (h : Heap) : h.Extends h := ⟨[], by simp⟩

theorem Heap.Extends.trans {h3 h2 h1 : Heap} (g : h3.Extends h2) (f : h2.Extends h1) :
    h3.Extends h1 := by
  obtain ⟨e1, he1⟩ := g
  obtain ⟨e2, he2⟩ := f
  exact ⟨e2 ++ e1, by rw [he1, he2, List.append_assoc]⟩

theorem Heap.Extends.length_le {h' h : Heap} (g : h'.Extends h) :
    h.cells.length ≤ h'.cells.length := by
  obtain ⟨e, he⟩ := g
  simp [he]

theorem Heap.Extends.get_eq {h' h : Heap} (g : h'.Extends h) {a : Nat}
    (ha : a < h.cells.length) : h'.get a = h.get a := by
  obtain ⟨e, he⟩ := g
  simp [Heap.get, he, List.getElem?_append_left ha]

theorem Heap.alloc_extends (h : Heap) (xs : List Int) : (h.alloc xs).1.Extends h :=
  ⟨[xs], by simp [Heap.alloc]⟩

theorem Heap.alloc_get_new (h : Heap) (xs : List Int) :
    (h.alloc xs).1.get h.cells.length = xs := by
  simp [Heap.alloc, Heap.get, List.getElem?_concat_length]

theorem Heap.alloc_length (h : Heap) (xs : List Int) :
    (h.alloc xs).1.cells.length = h.cells.length + 1 := by
  simp [Heap.alloc]

theorem Heap.set_length (h : Heap) (a : Nat) (xs : List Int) :
    (h.set a xs).cells.length = h.cells.length := by
  simp [Heap.set]

theorem Heap.set_get_ne (h : Heap) (a b : Nat) (xs : List Int) (hne : a ≠ b) :
    (h.set a xs).get b = h.get b := by
  simp [Heap.set, Heap.get, List.getElem?_set_ne hne]

theorem copyVal_extends (h : Heap) (v : V) : (copyVal h v).1.Extends h := by
  cases v with
  | int n => exact Heap.Extends.rfl h
  | ref a => exact Heap.alloc_extends h (h.get a)

theorem lookupStr_cons {α : Type} (k : String) (v : α) (rest : List (String × α))
    (nm : String) :
    lookupStr ((k, v) :: rest) nm = if k = nm then some v else lookupStr rest nm := rfl

theorem lookupStr_eq_none {α : Type} (l : List (String × α)) (nm : String)
    (h : nm ∉ l.map Prod.fst) : lookupStr l nm = none := by
  induction l with
  | nil => rfl
  | cons p rest ih =>
      obtain ⟨k, v⟩ := p
      simp only [List.map_cons, List.mem_cons, not_or] at h
      rw [lookupStr_cons, if_neg (fun he => h.1 he.symm)]
      exact ih h.2

theorem lookupStr_append_some {α : Type} (l1 l2 : List (String × α)) (nm : String)
    (v : α) (h : lookupStr l1 nm = some v) : lookupStr (l1 ++ l2) nm = some v := by
  induction l1 with
  | nil => simp [lookupStr] at h
  | cons p rest ih =>
      obtain ⟨k, w⟩ := p
      rw [lookupStr_cons] at h
      rw [List.cons_append, lookupStr_cons]
      by_cases hk : k = nm
      · rwa [if_pos hk] at h ⊢
      · rw [if_neg hk] at h ⊢
        exact ih h

theorem lookupStr_append_none {α : Type} (l1 l2 : List (String × α)) (nm : String)
    (h : lookupStr l1 nm = none) : lookupStr (l1 ++ l2) nm = lookupStr l2 nm := by
  induction l1 with
  | nil => rfl
  | cons p rest ih =>
      obtain ⟨k, w⟩ := p
      rw [lookupStr_cons] at h
      rw [List.cons_append, lookupStr_cons]
      by_cases hk : k = nm
      · rw [if_pos hk] at h
        exact absurd h (by simp)
      · rw [if_neg hk] at h ⊢
        exact ih h

/-- The injected value v is a fresh copy, made starting from heap h and still
intact in the final heap h', of the default value dv. -/
def FreshCopy (h h' : Heap) (dv v : V) : Prop :=
  match dv with
  | .int n => v = V.int n
  | .ref d =>
      ∃ b, v = V.ref b ∧ h.cells.length ≤ b ∧ b < h'.cells.length ∧ h'.get b = h.get d

theorem FreshCopy.of_front {h0 h h' : Heap} {dv v : V} (g : h.Extends h0)
    (hval : dv.validIn h0 = true) (f : FreshCopy h h' dv v) : FreshCopy h0 h' dv v := by
  cases dv with
  | int n => exact f
  | ref d =>
      obtain ⟨b, hv, hb1, hb2, hb3⟩ := f
      refine ⟨b, hv, le_trans g.length_le hb1, hb2, ?_⟩
      rw [hb3]
      simp only [V.validIn, decide_eq_true_eq] at hval
      exact g.get_eq hval

theorem FreshCopy.of_back {h h1 h' : Heap} {dv v : V} (g : h'.Extends h1)
    (f : FreshCopy h h1 dv v) : FreshCopy h h' dv v := by
  cases dv with
  | int n => exact f
  | ref d =>
      obtain ⟨b, hv, hb1, hb2, hb3⟩ := f
      exact ⟨b, hv, hb1, lt_of_lt_of_le hb2 g.length_le, by rw [g.get_eq hb2, hb3]⟩

/-- The common shape of the two injection loops of safe_f once the supplied
parameters have been filtered away: copy each remaining default in order. -/
def inject_from (cp : HCopy) : List (String × V) → Heap → Heap × List (String × V)
  | [], h => (h, [])
  | (nm, dv) :: rest, h =>
      let hv := cp h dv
      let ht := inject_from cp rest hv.1
      (ht.1, (nm, hv.2) :: ht.2)

theorem inject_args_eq (cp : HCopy) (A : List (Parameter V)) (n : Nat)
    (kw : List String) (h : Heap) :
    inject_args cp A n kw h =
      inject_from cp
        ((A.filter fun a => ! arg_supplied_to_call a n kw).map
          fun a => (a.name, a.default_val)) h := by
  induction A generalizing h with
  | nil => rfl
  | cons a rest ih =>
      by_cases hs : arg_supplied_to_call a n kw
      · simp [inject_args, hs, List.filter_cons, ih]
      · simp [inject_args, hs, List.filter_cons, inject_from, ih]

theorem inject_kwonly_eq (cp : HCopy) (A : List (KWParameter V)) (kw : List String)
    (h : Heap) :
    inject_kwonly cp A kw h =
      inject_from cp
        ((A.filter fun a => ! decide (a.name ∈ kw)).map
          fun a => (a.name, a.default_val)) h := by
  induction A generalizing h with
  | nil => rfl
  | cons a rest ih =>
      by_cases hs : a.name ∈ kw
      · simp [inject_kwonly, hs, List.filter_cons, ih]
      · simp [inject_kwonly, hs, List.filter_cons, inject_from, ih]

theorem inject_from_extends (todo : List (String × V)) (h : Heap) :
    (inject_from copyVal todo h).1.Extends h := by
  induction todo generalizing h with
  | nil => exact Heap.Extends.rfl h
  | cons p rest ih =>
      obtain ⟨nm, dv⟩ := p
      exact (ih (copyVal h dv).1).trans (copyVal_extends h dv)

theorem inject_from_keys (todo : List (String × V)) (h : Heap) :
    (inject_from copyVal todo h).2.map Prod.fst = todo.map Prod.fst := by
  induction todo generalizing h with
  | nil => rfl
  | cons p rest ih =>
      obtain ⟨nm, dv⟩ := p
      simp [inject_from, ih]

theorem inject_from_fresh (todo : List (String × V)) (h : Heap) :
    ∀ p ∈ (inject_from copyVal todo h).2, ∀ b, p.2 = V.ref b → h.cells.length ≤ b := by
  induction todo generalizing h with
  | nil => intro p hp; simp [inject_from] at hp
  | cons q rest ih =>
      obtain ⟨nm, dv⟩ := q
      intro p hp b hb
      simp only [inject_from, List.mem_cons] at hp
      rcases hp with hp | hp
      · subst hp
        cases dv with
        | int n => simp [copyVal] at hb
        | ref a =>
            simp only [copyVal, Heap.alloc] at hb
            cases hb
            exact le_refl _
      · have := ih (copyVal h dv).1 p hp b hb
        exact le_trans (copyVal_extends h dv).length_le this

theorem inject_from_found (todo : List (String × V)) (h : Heap) (nm : String) (dv : V)
    (hmem : (nm, dv) ∈ todo) (hnd : (todo.map Prod.fst).Nodup)
    (hval : dv.validIn h = true) :
    ∃ v, lookupStr (inject_from copyVal todo h).2 nm = some v ∧
      FreshCopy h (inject_from copyVal todo h).1 dv v := by
  induction todo generalizing h with
  | nil => simp at hmem
  | cons q rest ih =>
      obtain ⟨k, w⟩ := q
      simp only [List.map_cons, List.nodup_cons] at hnd
      rcases List.mem_cons.mp hmem with hq | hq
      · injection hq with hk hw
        subst hk; subst hw
        cases dv with
        | int n =>
            refine ⟨V.int n, ?_, ?_⟩
            · simp [inject_from, copyVal, lookupStr_cons]
            · simp [FreshCopy]
        | ref d =>
            simp only [V.validIn, decide_eq_true_eq] at hval
            refine ⟨V.ref h.cells.length, ?_, ?_⟩
            · simp [inject_from, copyVal, lookupStr_cons, Heap.alloc]
            · have hext : (inject_from copyVal rest (copyVal h (V.ref d)).1).1.Extends
                  (copyVal h (V.ref d)).1 := inject_from_extends rest _
              refine ⟨h.cells.length, rfl, le_refl _, ?_, ?_⟩
              · calc h.cells.length < (copyVal h (V.ref d)).1.cells.length := by
                      simp [copyVal, Heap.alloc_length]
                  _ ≤ _ := hext.length_le
              · show (inject_from copyVal rest (copyVal h (V.ref d)).1).1.get
                    h.cells.length = h.get d
                rw [hext.get_eq (by simp [copyVal, Heap.alloc_length])]
                simpa [copyVal] using Heap.alloc_get_new h (h.get d)
      · have hkne : k ≠ nm := by
          intro he
          exact hnd.1 (he ▸ List.mem_map_of_mem Prod.fst hq)
        have hval2 : dv.validIn (copyVal h w).1 = true := by
          cases dv with
          | int n => rfl
          | ref d =>
              simp only [V.validIn, decide_eq_true_eq] at hval ⊢
              exact lt_of_lt_of_le hval (copyVal_extends h w).length_le
        obtain ⟨v, hv1, hv2⟩ := ih (copyVal h w).1 hq hnd.2 hval2
        refine ⟨v, ?_, ?_⟩
        · simpa [inject_from, lookupStr_cons, if_neg hkne] using hv1
        · exact (hv2.of_front (copyVal_extends h w) hval).of_front (Heap.Extends.rfl h)
            (by exact hval)

theorem except_bind_ok {ε α β : Type} (a : α) (f : α → Except ε β) :
    (Except.ok a >>= f : Except ε β) = f a := rfl

theorem except_bind_err {ε α β : Type} (e : ε) (f : α → Except ε β) :
    (Except.error e >>= f : Except ε β) = Except.error e := rfl

/-! ### Claim theorems -/

/-- C1 (code evaluation at the failing input): the claim says that a wrap
construction given neither useDeepCopy nor copyFunction selects shallow
copy. The code instead selects deepcopy for every value of the flag,
because line 181 tests the truthiness of the imported deepcopy function
rather than the use_deepcopy parameter, so the shallow-copy mode is
unreachable. -/
theorem c1_default_construction_selects_deepcopy (γ : Type) (b : Bool) :
    mutable ([] : List (DecArg Nat)) b (none : Option γ) =
      Except.ok (MutableResult.decorator CopyChoice.deep []) := rfl

/-- C2 (code evaluation at the failing input): the claim says that supplying
a copyFunction with useDeepCopy left at its default False succeeds, with the
custom function taking precedence. The code instead raises the
configuration ValueError for every non-null copyfunction, because the
guard at line 181 is always taken. -/
theorem c2_copyfunction_with_flag_false_raises :
    mutable ([] : List (DecArg Nat)) false (some ()) =
      Except.error
        (PyError.valueError "Cannot specify copyfunction if deepcopy is True") := rfl

/-- The signature of def f(x, a=[]): parameter x has no default value,
parameter a defaults to heap object 0. -/
def specNoDefaultX : FullArgSpec V := FullArgSpec.mk ["x", "a"] [V.ref 0] [] []

/-- C3 (code evaluation at the failing input): requesting protection for
the non-defaulted parameter name x of f(x, a=[]) does not raise. Because
_get_arginfo computes defaults[0 - 1] and Python's negative indexing wraps
around, the decorator silently tracks x with the default value of a. The
last two conjuncts record that x sits at index 0, strictly before the
defaulted region, which starts at index 1 — i.e. x really has no default. -/
theorem c3_non_defaulted_name_silently_accepted :
    get_argument_lists [DecArg.str "x"] specNoDefaultX =
      Except.ok ([Parameter.mk "x" 0 (V.ref 0)], []) ∧
    pyIndex specNoDefaultX.args "x" = Except.ok 0 ∧
    specNoDefaultX.args.length - specNoDefaultX.defaults.length = 1 :=
  ⟨rfl, rfl, rfl⟩

/-- C9: applying mutable directly to a callable (the bare-decorator form,
lines 211-218) produces exactly the wrapper that the zero-configuration
factory form mutable()(f) produces: the dispatch resets args to the empty
tuple and invokes the same mutable_decorator closure, with the same copy
strategy, so the two forms are observationally equal on every call. -/
theorem c9_bare_decorator_equals_factory (α : Type) (spec : FullArgSpec α) :
    mutable [DecArg.func spec] false (none : Option Unit) =
      (mutable_decorator CopyChoice.deep ([] : List (DecArg α)) spec).map
        MutableResult.wrapped ∧
    mutable ([] : List (DecArg α)) false (none : Option Unit) =
      Except.ok (MutableResult.decorator CopyChoice.deep []) := ⟨rfl, rfl⟩

/-- C10: the use_deepcopy flag is never consulted anywhere in construction
(and the returned value, which completely determines call behavior, is
therefore independent of it): the body of mutable reads the imported
deepcopy function at line 181, never its use_deepcopy parameter. -/
theorem c10_use_deepcopy_never_consulted (α γ : Type) (args : List (DecArg α))
    (b1 b2 : Bool) (cf : Option γ) :
    mutable args b1 cf = mutable args b2 cf := rfl

/-- The positional injection work list: name and default of each tracked
positional parameter the call did not supply, in tracking order. -/
def posTodo (A : List (Parameter V)) (n : Nat) (kw : List String) : List (String × V) :=
  (A.filter fun x => ! arg_supplied_to_call x n kw).map fun x => (x.name, x.default_val)

/-- The keyword-only injection work list. -/
def kwTodo (A : List (KWParameter V)) (kw : List String) : List (String × V) :=
  (A.filter fun x => ! decide (x.name ∈ kw)).map fun x => (x.name, x.default_val)

theorem safe_f_eq (w : Wrapper V HCopy) (h : Heap) (P : List V) (K : List (String × V))
    (hcp : w.copy = CopyChoice.deep) :
    safe_f w h P K =
      ((inject_from copyVal (kwTodo w.kwonly_arguments (K.map Prod.fst))
          (inject_from copyVal (posTodo w.arguments P.length (K.map Prod.fst)) h).1).1,
       P,
       K ++ ((inject_from copyVal (posTodo w.arguments P.length (K.map Prod.fst)) h).2 ++
         (inject_from copyVal (kwTodo w.kwonly_arguments (K.map Prod.fst))
           (inject_from copyVal (posTodo w.arguments P.length (K.map Prod.fst)) h).1).2)) := by
  unfold safe_f
  rw [hcp]
  simp only [CopyChoice.run, inject_args_eq, inject_kwonly_eq]
  rfl

theorem posTodo_keys (A : List (Parameter V)) (n : Nat) (kw : List String) :
    (posTodo A n kw).map Prod.fst =
      (A.filter fun x => ! arg_supplied_to_call x n kw).map Parameter.name := by
  simp [posTodo, List.map_map]

theorem kwTodo_keys (A : List (KWParameter V)) (kw : List String) :
    (kwTodo A kw).map Prod.fst =
      (A.filter fun x => ! decide (x.name ∈ kw)).map KWParameter.name := by
  simp [kwTodo, List.map_map]

/-- C8: a call of the wrapped callable never mutates any pre-existing heap
cell — in particular the stored default of every tracked parameter keeps its
original content — and no value injected into the delegated call aliases a
pre-existing object: only freshly allocated copies are ever handed to the
underlying callable. -/
theorem c8_defaults_never_mutated (w : Wrapper V HCopy) (h : Heap) (P : List V)
    (K : List (String × V)) (a : Nat) (hcp : w.copy = CopyChoice.deep)
    (ha : a < h.cells.length) :
    (safe_f w h P K).1.get a = h.get a ∧
    ∀ p ∈ (safe_f w h P K).2.2.drop K.length, ∀ b, p.2 = V.ref b → a ≠ b := by
  rw [safe_f_eq w h P K hcp]
  have e1 : (inject_from copyVal (posTodo w.arguments P.length (K.map Prod.fst)) h).1.Extends
      h := inject_from_extends _ h
  have e2 : (inject_from copyVal (kwTodo w.kwonly_arguments (K.map Prod.fst))
      (inject_from copyVal (posTodo w.arguments P.length (K.map Prod.fst)) h).1).1.Extends
      (inject_from copyVal (posTodo w.arguments P.length (K.map Prod.fst)) h).1 :=
    inject_from_extends _ _
  constructor
  · exact (e2.trans e1).get_eq ha
  · intro p hp b hb
    rw [List.drop_left] at hp
    rcases List.mem_append.mp hp with hp | hp
    · have := inject_from_fresh _ h p hp b hb
      omega
    · have hfr := inject_from_fresh _ _ p hp b hb
      have hle := e1.length_le
      omega

/-- The concrete wrapper used by witnesses: protect parameter a (declared
second, default object 0) of def f(x, a=[]). -/
def wrapW : Wrapper V HCopy :=
  Wrapper.mk CopyChoice.deep [Parameter.mk "a" 1 (V.ref 0)] []

/-- The concrete one-object heap used by witnesses. -/
def heapW : Heap := Heap.mk [[1, 2]]

theorem c8_defaults_never_mutated_witness :
    (wrapW.copy = CopyChoice.deep ∧ 0 < heapW.cells.length) ∧
    ((safe_f wrapW heapW [V.int 5] []).1.get 0 = heapW.get 0 ∧
      ∀ p ∈ (safe_f wrapW heapW [V.int 5] []).2.2.drop ([] : List (String × V)).length,
        ∀ b, p.2 = V.ref b → 0 ≠ b) :=
  ⟨⟨rfl, by decide⟩,
    c8_defaults_never_mutated wrapW heapW [V.int 5] [] 0 rfl (by decide)⟩

/-- C7: for a parameter that is not in the tracked set, the wrapper injects
nothing and copies nothing: when the caller omits it, the underlying
callable binds it to the original declared default object itself (the same
object on every call), and the wrapper leaves that object's content
untouched — so mutations to it persist across calls exactly as they would
without the wrapper. -/
theorem c7_untracked_parameter_keeps_shared_default (w : Wrapper V HCopy)
    (h : Heap) (P : List V) (K : List (String × V)) (i : Nat) (nm : String) (dv : V)
    (hcp : w.copy = CopyChoice.deep)
    (hn1 : nm ∉ w.arguments.map Parameter.name)
    (hn2 : nm ∉ w.kwonly_arguments.map KWParameter.name)
    (hiP : P.length ≤ i) (hiK : lookupStr K nm = none) :
    bind_positional i nm dv (safe_f w h P K).2.1 (safe_f w h P K).2.2 = dv ∧
    ∀ d, dv = V.ref d → d < h.cells.length → (safe_f w h P K).1.get d = h.get d := by
  rw [safe_f_eq w h P K hcp]
  have e1 : (inject_from copyVal (posTodo w.arguments P.length (K.map Prod.fst)) h).1.Extends
      h := inject_from_extends _ h
  have e2 : (inject_from copyVal (kwTodo w.kwonly_arguments (K.map Prod.fst))
      (inject_from copyVal (posTodo w.arguments P.length (K.map Prod.fst)) h).1).1.Extends
      (inject_from copyVal (posTodo w.arguments P.length (K.map Prod.fst)) h).1 :=
    inject_from_extends _ _
  constructor
  · have hdk : lookupStr
        ((inject_from copyVal (posTodo w.arguments P.length (K.map Prod.fst)) h).2 ++
          (inject_from copyVal (kwTodo w.kwonly_arguments (K.map Prod.fst))
            (inject_from copyVal (posTodo w.arguments P.length (K.map Prod.fst)) h).1).2)
        nm = none := by
      apply lookupStr_eq_none
      rw [List.map_append]
      intro hc
      rcases List.mem_append.mp hc with hc | hc
      · rw [inject_from_keys, posTodo_keys] at hc
        exact hn1 ((List.Sublist.map Parameter.name (List.filter_sublist _)).subset hc)
      · rw [inject_from_keys, kwTodo_keys] at hc
        exact hn2 ((List.Sublist.map KWParameter.name (List.filter_sublist _)).subset hc)
    simp only [bind_positional, List.get?_eq_none.mpr hiP,
      lookupStr_append_none _ _ _ hiK, hdk]
  · intro d hdv hd
    exact (e2.trans e1).get_eq hd

/-- A two-object heap: cell 0 is the default of the protected parameter a,
cell 1 the default of the unprotected parameter b. -/
def heap2W : Heap := Heap.mk [[1, 2], [3]]

theorem c7_untracked_parameter_keeps_shared_default_witness :
    (wrapW.copy = CopyChoice.deep ∧
      "b" ∉ wrapW.arguments.map Parameter.name ∧
      "b" ∉ wrapW.kwonly_arguments.map KWParameter.name ∧
      ([V.int 5] : List V).length ≤ 2 ∧
      lookupStr ([] : List (String × V)) "b" = none) ∧
    (bind_positional 2 "b" (V.ref 1) (safe_f wrapW heap2W [V.int 5] []).2.1
        (safe_f wrapW heap2W [V.int 5] []).2.2 = V.ref 1 ∧
      ∀ d, V.ref 1 = V.ref d → d < heap2W.cells.length →
        (safe_f wrapW heap2W [V.int 5] []).1.get d = heap2W.get d) :=
  ⟨⟨rfl, by decide, by decide, by decide, rfl⟩,
    c7_untracked_parameter_keeps_shared_default wrapW heap2W [V.int 5] [] 2 "b"
      (V.ref 1) rfl (by decide) (by decide) (by decide) rfl⟩

theorem safe_f_single (nm : String) (i d : Nat) (h : Heap) (P : List V)
    (K : List (String × V))
    (hs : arg_supplied_to_call (Parameter.mk nm i (V.ref d)) P.length
      (K.map Prod.fst) = false) :
    safe_f (Wrapper.mk CopyChoice.deep [Parameter.mk nm i (V.ref d)] []) h P K =
      (Heap.mk (h.cells ++ [h.get d]), P, K ++ [(nm, V.ref h.cells.length)]) := by
  rw [safe_f_eq _ h P K rfl]
  simp [posTodo, kwTodo, List.filter_cons, hs, inject_from, copyVal, Heap.alloc]

/-- C5: two calls of the wrapper that both omit the protected parameter
receive distinct object identities for the injected value (the first call
gets the fresh cell a1, the second a different fresh cell a2), and even
after the first call's body mutates its injected cell, the second call's
injected value holds the pristine content of the declared default. -/
theorem c5_distinct_fresh_copies_across_calls (nm : String) (i d : Nat) (h : Heap)
    (P1 P2 : List V) (K1 K2 : List (String × V)) (m : List Int)
    (hd : d < h.cells.length)
    (hs1 : arg_supplied_to_call (Parameter.mk nm i (V.ref d)) P1.length
      (K1.map Prod.fst) = false)
    (hs2 : arg_supplied_to_call (Parameter.mk nm i (V.ref d)) P2.length
      (K2.map Prod.fst) = false) :
    let w := Wrapper.mk CopyChoice.deep [Parameter.mk nm i (V.ref d)] []
    let a1 := h.cells.length
    let call1 := safe_f w h P1 K1
    let hmid := call1.1.set a1 m
    let a2 := hmid.cells.length
    let call2 := safe_f w hmid P2 K2
    call1.2.2 = K1 ++ [(nm, V.ref a1)] ∧
    call2.2.2 = K2 ++ [(nm, V.ref a2)] ∧
    a1 ≠ a2 ∧
    call2.1.get a2 = h.get d := by
  intro w a1 call1 hmid a2 call2
  have e1 := safe_f_single nm i d h P1 K1 hs1
  have hmidc : hmid = Heap.mk ((h.cells ++ [h.get d]).set h.cells.length m) := by
    show (safe_f w h P1 K1).1.set a1 m = _
    rw [e1]
    rfl
  have hmidlen : hmid.cells.length = h.cells.length + 1 := by
    rw [hmidc]
    simp
  have e2 := safe_f_single nm i d hmid P2 K2 hs2
  refine ⟨?_, ?_, ?_, ?_⟩
  · show (safe_f w h P1 K1).2.2 = _
    rw [e1]
  · show (safe_f w hmid P2 K2).2.2 = _
    rw [e2]
  · show h.cells.length ≠ hmid.cells.length
    omega
  · show (safe_f w hmid P2 K2).1.get a2 = h.get d
    rw [e2]
    have hget : (Heap.mk (hmid.cells ++ [hmid.get d])).get hmid.cells.length =
        hmid.get d := by
      simp [Heap.get, List.getElem?_concat_length]
    rw [hget, hmidc]
    have hdne : d ≠ h.cells.length := by omega
    show (Heap.mk ((h.cells ++ [h.get d]).set h.cells.length m)).get d = h.get d
    have : (Heap.mk (h.cells ++ [h.get d])).set h.cells.length m =
        Heap.mk ((h.cells ++ [h.get d]).set h.cells.length m) := rfl
    rw [← this, Heap.set_get_ne _ _ _ _ (by omega)]
    simp [Heap.get, List.getElem?_append_left hd]

theorem c5_distinct_fresh_copies_across_calls_witness :
    (0 < heapW.cells.length ∧
      arg_supplied_to_call (Parameter.mk "a" 1 (V.ref 0)) ([V.int 7] : List V).length
        (([] : List (String × V)).map Prod.fst) = false ∧
      arg_supplied_to_call (Parameter.mk "a" 1 (V.ref 0)) ([V.int 9] : List V).length
        (([] : List (String × V)).map Prod.fst) = false) ∧
    (let w := Wrapper.mk CopyChoice.deep [Parameter.mk "a" 1 (V.ref 0)] []
     let a1 := heapW.cells.length
     let call1 := safe_f w heapW [V.int 7] []
     let hmid := call1.1.set a1 [1, 2, 7]
     let a2 := hmid.cells.length
     let call2 := safe_f w hmid [V.int 9] []
     call1.2.2 = [] ++ [("a", V.ref a1)] ∧
     call2.2.2 = [] ++ [("a", V.ref a2)] ∧
     a1 ≠ a2 ∧
     call2.1.get a2 = heapW.get 0) :=
  ⟨⟨by decide, by decide, by decide⟩,
    c5_distinct_fresh_copies_across_calls "a" 1 0 heapW [V.int 7] [V.int 9] [] []
      [1, 2, 7] (by decide) (by decide) (by decide)⟩

/-- Every tracked default of the wrapper points into heap h. -/
def Wrapper.defaultsValidIn (w : Wrapper V HCopy) (h : Heap) : Prop :=
  (∀ p ∈ w.arguments, p.default_val.validIn h = true) ∧
  (∀ k ∈ w.kwonly_arguments, k.default_val.validIn h = true)

/-- C4: supplied-detection and injection, for every call. The positional
arguments P and keyword arguments K of the caller pass through to the
underlying callable verbatim (untouched and uncopied); a tracked positional
parameter counts as supplied exactly when P covers its index or its name is
a key of K, a tracked keyword-only parameter exactly when its name is a key
of K; a supplied tracked parameter gets nothing injected; an unsupplied
tracked parameter gets a keyword binding to a fresh copy of its default. -/
theorem c4_supplied_detection_and_injection (w : Wrapper V HCopy) (h : Heap)
    (P : List V) (K : List (String × V)) (hcp : w.copy = CopyChoice.deep)
    (hnd : (w.arguments.map Parameter.name ++
      w.kwonly_arguments.map KWParameter.name).Nodup)
    (hval : w.defaultsValidIn h) :
    (safe_f w h P K).2.1 = P ∧
    ∃ dict, (safe_f w h P K).2.2 = K ++ dict ∧
      (∀ p ∈ w.arguments,
        arg_supplied_to_call p P.length (K.map Prod.fst) =
          (decide (P.length > p.idx) || decide (p.name ∈ K.map Prod.fst)) ∧
        (arg_supplied_to_call p P.length (K.map Prod.fst) = true →
          lookupStr dict p.name = none) ∧
        (arg_supplied_to_call p P.length (K.map Prod.fst) = false →
          ∃ v, lookupStr dict p.name = some v ∧
            FreshCopy h (safe_f w h P K).1 p.default_val v)) ∧
      (∀ k ∈ w.kwonly_arguments,
        (decide (k.name ∈ K.map Prod.fst) = true → lookupStr dict k.name = none) ∧
        (decide (k.name ∈ K.map Prod.fst) = false →
          ∃ v, lookupStr dict k.name = some v ∧
            FreshCopy h (safe_f w h P K).1 k.default_val v)) := by
  rw [safe_f_eq w h P K hcp]
  have hnd1 : (w.arguments.map Parameter.name).Nodup := hnd.of_append_left
  have hnd2 : (w.kwonly_arguments.map KWParameter.name).Nodup := hnd.of_append_right
  have hdisj := List.disjoint_of_nodup_append hnd
  set kw := K.map Prod.fst with hkw
  set td1 := posTodo w.arguments P.length kw with htd1
  set r1 := inject_from copyVal td1 h with hr1
  set td2 := kwTodo w.kwonly_arguments kw with htd2
  set r2 := inject_from copyVal td2 r1.1 with hr2
  have k1 : r1.2.map Prod.fst =
      (w.arguments.filter fun x => ! arg_supplied_to_call x P.length kw).map
        Parameter.name := by
    rw [hr1, inject_from_keys, htd1, posTodo_keys]
  have k2 : r2.2.map Prod.fst =
      (w.kwonly_arguments.filter fun x => ! decide (x.name ∈ kw)).map
        KWParameter.name := by
    rw [hr2, inject_from_keys, htd2, kwTodo_keys]
  have e1 : r1.1.Extends h := by rw [hr1]; exact inject_from_extends _ _
  have e2 : r2.1.Extends r1.1 := by rw [hr2]; exact inject_from_extends _ _
  refine ⟨rfl, r1.2 ++ r2.2, rfl, ?_, ?_⟩
  · intro p hp
    refine ⟨rfl, ?_, ?_⟩
    · intro hsup
      apply lookupStr_eq_none
      rw [List.map_append]
      intro hc
      rcases List.mem_append.mp hc with hc | hc
      · rw [k1] at hc
        obtain ⟨q, hqf, hqn⟩ := List.mem_map.mp hc
        obtain ⟨hqA, hqu⟩ := List.mem_filter.mp hqf
        have hqp : q = p := List.inj_on_of_nodup_map hnd1 hqA hp hqn
        rw [hqp, hsup] at hqu
        simp at hqu
      · rw [k2] at hc
        have hmemk : p.name ∈ w.kwonly_arguments.map KWParameter.name :=
          (List.Sublist.map KWParameter.name (List.filter_sublist _)).subset hc
        exact hdisj (List.mem_map_of_mem Parameter.name hp) hmemk
    · intro hsup
      have hmem1 : (p.name, p.default_val) ∈ td1 := by
        rw [htd1]
        exact List.mem_map_of_mem _
          (List.mem_filter.mpr ⟨hp, by rw [hsup]; rfl⟩)
      have hknd1 : (td1.map Prod.fst).Nodup := by
        rw [htd1, posTodo_keys]
        exact hnd1.sublist (List.Sublist.map Parameter.name (List.filter_sublist _))
      obtain ⟨v, hv1, hv2⟩ :=
        inject_from_found td1 h p.name p.default_val hmem1 hknd1 (hval.1 p hp)
      refine ⟨v, ?_, ?_⟩
      · rw [← hr1] at hv1
        exact lookupStr_append_some _ _ _ _ hv1
      · rw [← hr1] at hv2
        exact hv2.of_back e2
  · intro k hk
    have hnotin1 : k.name ∉ r1.2.map Prod.fst := by
      rw [k1]
      intro hc
      have hmemA : k.name ∈ w.arguments.map Parameter.name :=
        (List.Sublist.map Parameter.name (List.filter_sublist _)).subset hc
      exact hdisj hmemA (List.mem_map_of_mem KWParameter.name hk)
    refine ⟨?_, ?_⟩
    · intro hsup
      apply lookupStr_eq_none
      rw [List.map_append]
      intro hc
      rcases List.mem_append.mp hc with hc | hc
      · exact hnotin1 hc
      · rw [k2] at hc
        obtain ⟨q, hqf, hqn⟩ := List.mem_map.mp hc
        obtain ⟨hqA, hqu⟩ := List.mem_filter.mp hqf
        have hqk : q = k := List.inj_on_of_nodup_map hnd2 hqA hk hqn
        rw [hqk, hsup] at hqu
        simp at hqu
    · intro hsup
      have hmem2 : (k.name, k.default_val) ∈ td2 := by
        rw [htd2]
        exact List.mem_map_of_mem _
          (List.mem_filter.mpr ⟨hk, by rw [hsup]; rfl⟩)
      have hknd2 : (td2.map Prod.fst).Nodup := by
        rw [htd2, kwTodo_keys]
        exact hnd2.sublist (List.Sublist.map KWParameter.name (List.filter_sublist _))
      have hval2 : k.default_val.validIn r1.1 = true := by
        have := hval.2 k hk
        cases hdv : k.default_val with
        | int n => rfl
        | ref d =>
            rw [hdv] at this
            simp only [V.validIn, decide_eq_true_eq] at this ⊢
            exact lt_of_lt_of_le this e1.length_le
      obtain ⟨v, hv1, hv2⟩ :=
        inject_from_found td2 r1.1 k.name k.default_val hmem2 hknd2 hval2
      refine ⟨v, ?_, ?_⟩
      · rw [← hr2] at hv1
        rw [lookupStr_append_none _ _ _ (lookupStr_eq_none _ _ hnotin1)]
        exact hv1
      · rw [← hr2] at hv2
        exact hv2.of_front e1 (hval.2 k hk)

theorem c4_supplied_detection_and_injection_witness :
    (wrapW.copy = CopyChoice.deep ∧
      (wrapW.arguments.map Parameter.name ++
        wrapW.kwonly_arguments.map KWParameter.name).Nodup ∧
      wrapW.defaultsValidIn heapW) ∧
    ((safe_f wrapW heapW [V.int 5] []).2.1 = [V.int 5] ∧
      ∃ dict, (safe_f wrapW heapW [V.int 5] []).2.2 = [] ++ dict ∧
        (∀ p ∈ wrapW.arguments,
          arg_supplied_to_call p ([V.int 5] : List V).length
              (([] : List (String × V)).map Prod.fst) =
            (decide (([V.int 5] : List V).length > p.idx) ||
              decide (p.name ∈ ([] : List (String × V)).map Prod.fst)) ∧
          (arg_supplied_to_call p ([V.int 5] : List V).length
              (([] : List (String × V)).map Prod.fst) = true →
            lookupStr dict p.name = none) ∧
          (arg_supplied_to_call p ([V.int 5] : List V).length
              (([] : List (String × V)).map Prod.fst) = false →
            ∃ v, lookupStr dict p.name = some v ∧
              FreshCopy heapW (safe_f wrapW heapW [V.int 5] []).1 p.default_val v)) ∧
        (∀ k ∈ wrapW.kwonly_arguments,
          (decide (k.name ∈ ([] : List (String × V)).map Prod.fst) = true →
            lookupStr dict k.name = none) ∧
          (decide (k.name ∈ ([] : List (String × V)).map Prod.fst) = false →
            ∃ v, lookupStr dict k.name = some v ∧
              FreshCopy heapW (safe_f wrapW heapW [V.int 5] []).1 k.default_val v))) :=
  ⟨⟨rfl, by decide, by constructor <;> decide⟩,
    c4_supplied_detection_and_injection wrapW heapW [V.int 5] [] rfl (by decide)
      (by constructor <;> decide)⟩

theorem pyIndex_of_get (l : List String) (i : Nat) (x : String)
    (hnd : l.Nodup) (hx : l.get? i = some x) : pyIndex l x = Except.ok i := by
  induction l generalizing i with
  | nil => simp at hx
  | cons a rest ih =>
      obtain ⟨hna, hnr⟩ := List.nodup_cons.mp hnd
      cases i with
      | zero =>
          have hax : a = x := by simpa using hx
          subst hax
          simp [pyIndex]
      | succ j =>
          have hx2 : rest.get? j = some x := by simpa using hx
          have hxm : x ∈ rest := by
            rw [List.get?_eq_getElem?] at hx2
            exact List.getElem?_mem hx2
          have hne : ¬ (a = x) := fun he => hna (he ▸ hxm)
          simp only [pyIndex, if_neg hne]
          rw [ih j hnr hx2]
          rfl

theorem mapM_ok_over {α β γ : Type} (g : β → Except PyError γ) (key : α → β)
    (t : α → γ) :
    ∀ (l : List α), (∀ p ∈ l, g (key p) = Except.ok (t p)) →
      (l.map key).mapM g = Except.ok (l.map t)
  | [], _ => rfl
  | c :: l, hl => by
      have hh : g (key c) = Except.ok (t c) := hl c (List.mem_cons_self c l)
      have ih := mapM_ok_over g key t l (fun p hp => hl p (List.mem_cons_of_mem c hp))
      simp only [List.map_cons, List.mapM_cons, hh, ih, except_bind_ok]
      rfl

theorem get?_drop_my {α : Type} :
    ∀ (l : List α) (n m : Nat), (l.drop n).get? m = l.get? (n + m)
  | _, 0, _ => by simp
  | [], n + 1, m => by simp
  | a :: l, n + 1, m => by
      rw [List.drop_succ_cons]
      have harith : n + 1 + m = (n + m) + 1 := by omega
      rw [harith, List.get?_cons_succ]
      exact get?_drop_my l n m

theorem mem_enumFrom_zip {α : Type} :
    ∀ (xs : List String) (ys : List α) (n : Nat) (p : Nat × String × α),
      p ∈ List.enumFrom n (xs.zip ys) →
      n ≤ p.1 ∧ xs.get? (p.1 - n) = some p.2.1 ∧ ys.get? (p.1 - n) = some p.2.2
  | [], ys, n, p, hp => by simp at hp
  | x :: xs, [], n, p, hp => by simp at hp
  | x :: xs, y :: ys, n, p, hp => by
      rw [List.zip_cons_cons, List.enumFrom_cons] at hp
      rcases List.mem_cons.mp hp with hp | hp
      · subst hp
        refine ⟨le_refl n, ?_, ?_⟩ <;> simp
      · obtain ⟨h1, h2, h3⟩ := mem_enumFrom_zip xs ys (n + 1) p hp
        have harith : p.1 - n = (p.1 - (n + 1)) + 1 := by omega
        refine ⟨by omega, ?_, ?_⟩
        · rw [harith, List.get?_cons_succ]
          exact h2
        · rw [harith, List.get?_cons_succ]
          exact h3

theorem lookupStr_of_mem_nodup {α : Type} (l : List (String × α)) (k : String) (v : α)
    (hnd : (l.map Prod.fst).Nodup) (hm : (k, v) ∈ l) : lookupStr l k = some v := by
  induction l with
  | nil => simp at hm
  | cons p rest ih =>
      obtain ⟨a, b⟩ := p
      have hnd2 : a ∉ rest.map Prod.fst ∧ (rest.map Prod.fst).Nodup := by
        simpa using hnd
      rcases List.mem_cons.mp hm with hm | hm
      · injection hm with h1 h2
        subst h1; subst h2
        simp [lookupStr_cons]
      · have hka : a ≠ k := by
          intro he
          subst he
          exact hnd2.1 (List.mem_map_of_mem Prod.fst hm)
        rw [lookupStr_cons, if_neg hka]
        exact ih hnd2.2 hm

theorem get_arginfo_at {α : Type} (spec : FullArgSpec α) (hnd : spec.args.Nodup)
    (hlen : spec.defaults.length ≤ spec.args.length) (i : Nat) (nm : String) (dv : α)
    (hge : spec.args.length - spec.defaults.length ≤ i)
    (hni : spec.args.get? i = some nm)
    (hdi : spec.defaults.get? (i - (spec.args.length - spec.defaults.length)) =
      some dv) :
    get_arginfo nm spec = Except.ok (Parameter.mk nm i dv) := by
  have h1 : pyIndex spec.args nm = Except.ok i := pyIndex_of_get _ _ _ hnd hni
  have h2 : pyGet spec.defaults
      ((i : Int) - ((spec.args.length : Int) - (spec.defaults.length : Int))) =
      Except.ok dv := by
    have harith : ((i : Int) - ((spec.args.length : Int) - (spec.defaults.length : Int))) =
        ((i - (spec.args.length - spec.defaults.length) : Nat) : Int) := by
      omega
    rw [harith]
    unfold pyGet
    rw [if_pos (Int.natCast_nonneg _)]
    rw [List.get?_eq_getElem?] at hdi
    simp [Int.toNat_ofNat, hdi]
  unfold get_arginfo
  simp only [h1, except_bind_ok, h2]
  rfl

/-- The tracked positional parameters that the claim's track-everything mode
describes: one Parameter per defaulted positional slot of the signature, in
declaration order, paired with its aligned default value. -/
def expectedPositional {α : Type} (spec : FullArgSpec α) : List (Parameter α) :=
  (List.enumFrom (spec.args.length - spec.defaults.length)
      ((spec.args.drop (spec.args.length - spec.defaults.length)).zip
        spec.defaults)).map
    (fun p => Parameter.mk p.2.1 p.1 p.2.2)

/-- The tracked keyword-only parameters that the claim describes: one
KWParameter per keyword-only default binding. -/
def expectedKwonly {α : Type} (spec : FullArgSpec α) : List (KWParameter α) :=
  spec.kwonlydefaults.map (fun p => KWParameter.mk p.1 p.2)

/-- C6: with an empty requested-name sequence, the wrapper tracks exactly
every defaulted positional parameter and every defaulted keyword-only
parameter. The second conjunct certifies that each tracked positional entry
lies inside the defaulted region (index at least firstDefaultIndex) with its
own name and its aligned default — so nothing without a default is tracked —
and the third that the count equals the number of defaults, so every
defaulted parameter is tracked. -/
theorem c6_empty_names_tracks_all_defaulted {α : Type} (spec : FullArgSpec α)
    (hnd : spec.args.Nodup) (hlen : spec.defaults.length ≤ spec.args.length)
    (hknd : (spec.kwonlydefaults.map Prod.fst).Nodup) :
    get_argument_lists ([] : List (DecArg α)) spec =
      Except.ok (expectedPositional spec, expectedKwonly spec) ∧
    (∀ p ∈ expectedPositional spec,
      spec.args.length - spec.defaults.length ≤ p.idx ∧
      spec.args.get? p.idx = some p.name ∧
      spec.defaults.get? (p.idx - (spec.args.length - spec.defaults.length)) =
        some p.default_val) ∧
    (expectedPositional spec).length = spec.defaults.length := by
  have hdlen : (spec.args.drop (spec.args.length - spec.defaults.length)).length =
      spec.defaults.length := by
    rw [List.length_drop]
    omega
  have hmemc : ∀ p ∈ List.enumFrom (spec.args.length - spec.defaults.length)
      ((spec.args.drop (spec.args.length - spec.defaults.length)).zip spec.defaults),
      spec.args.length - spec.defaults.length ≤ p.1 ∧
      spec.args.get? p.1 = some p.2.1 ∧
      spec.defaults.get? (p.1 - (spec.args.length - spec.defaults.length)) =
        some p.2.2 := by
    intro p hp
    obtain ⟨h1, h2, h3⟩ := mem_enumFrom_zip _ _ _ _ hp
    refine ⟨h1, ?_, h3⟩
    rw [get?_drop_my] at h2
    rw [← h2]
    congr 1
    omega
  have hpos : get_arguments_with_defaults spec = Except.ok (expectedPositional spec) := by
    show List.mapM (fun arg => get_arginfo arg spec)
        (List.drop (spec.args.length - spec.defaults.length) spec.args) =
      Except.ok (expectedPositional spec)
    have hdropmap : (List.enumFrom (spec.args.length - spec.defaults.length)
        ((spec.args.drop (spec.args.length - spec.defaults.length)).zip
          spec.defaults)).map (fun p => p.2.1) =
        spec.args.drop (spec.args.length - spec.defaults.length) := by
      have hz : ((spec.args.drop (spec.args.length - spec.defaults.length)).zip
          spec.defaults).map Prod.fst =
          spec.args.drop (spec.args.length - spec.defaults.length) :=
        List.map_fst_zip _ _ (by omega)
      calc (List.enumFrom (spec.args.length - spec.defaults.length)
              ((spec.args.drop (spec.args.length - spec.defaults.length)).zip
                spec.defaults)).map (fun p => p.2.1)
          = (((List.enumFrom (spec.args.length - spec.defaults.length)
              ((spec.args.drop (spec.args.length - spec.defaults.length)).zip
                spec.defaults)).map Prod.snd).map Prod.fst) := by
            rw [List.map_map]; rfl
        _ = _ := by rw [List.enumFrom_map_snd]; exact hz
    rw [← hdropmap]
    exact mapM_ok_over (fun arg => get_arginfo arg spec)
      (fun (p : Nat × String × α) => p.2.1)
      (fun (p : Nat × String × α) => Parameter.mk p.2.1 p.1 p.2.2) _
      (fun (p : Nat × String × α) hp => by
        obtain ⟨h1, h2, h3⟩ := hmemc p hp
        exact get_arginfo_at spec hnd hlen p.1 p.2.1 p.2.2 h1 h2 h3)
  have hkw : get_kwonly_arguments_with_defaults spec =
      Except.ok (expectedKwonly spec) := by
    unfold get_kwonly_arguments_with_defaults
    exact mapM_ok_over (fun arg => get_kwonly_arginfo arg spec) Prod.fst
      (fun p => KWParameter.mk p.1 p.2) spec.kwonlydefaults
      (fun (p : String × α) hp => by
        simp [get_kwonly_arginfo,
          lookupStr_of_mem_nodup spec.kwonlydefaults p.1 p.2 hknd (by simpa using hp)])
  refine ⟨?_, ?_, ?_⟩
  · simp [get_argument_lists, hpos, hkw, except_bind_ok]
  · intro p hp
    obtain ⟨q, hq, hqe⟩ := List.mem_map.mp hp
    obtain ⟨h1, h2, h3⟩ := hmemc q hq
    subst hqe
    exact ⟨h1, h2, h3⟩
  · unfold expectedPositional
    rw [List.length_map, List.enumFrom_length, List.length_zip, hdlen]
    omega

theorem c6_empty_names_tracks_all_defaulted_witness :
    ((["x", "a"] : List String).Nodup ∧
      (FullArgSpec.mk ["x", "a"] [V.ref 0] ["c"] [("c", V.ref 1)]).defaults.length ≤
        (FullArgSpec.mk ["x", "a"] [V.ref 0] ["c"] [("c", V.ref 1)]).args.length ∧
      ((FullArgSpec.mk ["x", "a"] [V.ref 0] ["c"]
        [("c", V.ref 1)]).kwonlydefaults.map Prod.fst).Nodup) ∧
    (get_argument_lists ([] : List (DecArg V))
        (FullArgSpec.mk ["x", "a"] [V.ref 0] ["c"] [("c", V.ref 1)]) =
      Except.ok
        (expectedPositional (FullArgSpec.mk ["x", "a"] [V.ref 0] ["c"] [("c", V.ref 1)]),
         expectedKwonly (FullArgSpec.mk ["x", "a"] [V.ref 0] ["c"] [("c", V.ref 1)])) ∧
      (∀ p ∈ expectedPositional
          (FullArgSpec.mk ["x", "a"] [V.ref 0] ["c"] [("c", V.ref 1)]),
        (FullArgSpec.mk ["x", "a"] [V.ref 0] ["c"] [("c", V.ref 1)]).args.length -
            (FullArgSpec.mk ["x", "a"] [V.ref 0] ["c"]
              [("c", V.ref 1)]).defaults.length ≤ p.idx ∧
        (FullArgSpec.mk ["x", "a"] [V.ref 0] ["c"] [("c", V.ref 1)]).args.get? p.idx =
          some p.name ∧
        (FullArgSpec.mk ["x", "a"] [V.ref 0] ["c"] [("c", V.ref 1)]).defaults.get?
            (p.idx - ((FullArgSpec.mk ["x", "a"] [V.ref 0] ["c"]
              [("c", V.ref 1)]).args.length -
              (FullArgSpec.mk ["x", "a"] [V.ref 0] ["c"]
                [("c", V.ref 1)]).defaults.length)) = some p.default_val) ∧
      (expectedPositional
        (FullArgSpec.mk ["x", "a"] [V.ref 0] ["c"] [("c", V.ref 1)])).length =
        (FullArgSpec.mk ["x", "a"] [V.ref 0] ["c"] [("c", V.ref 1)]).defaults.length) :=
  ⟨⟨by decide, by decide, by decide⟩,
    c6_empty_names_tracks_all_defaulted
      (FullArgSpec.mk ["x", "a"] [V.ref 0] ["c"] [("c", V.ref 1)])
      (by decide) (by decide) (by decide)⟩

end MutableTrap
